import Mathlib

/-!
Verification development for the veri-text detection-and-arbitration engine.

Shallow embedding of the Python sources:
* `src/services/result_arbitrator.py`  (Hit, ArbitrationConfig, DetectionResultArbitrator)
* `src/services/text_processor.py`     (TextPreprocessor.normalize / split_text)
* `src/services/yaml_config_reader.py` (WordlistConfig.load_words)
* `src/services/rule_detector.py`      (RuleBasedDetector.load_wordlists word filter)
* `src/services/enhanced_detection_service.py` (EnhancedDetectionService.detect)
* `src/models/common.py`, `src/models/detection.py` (data model)

Conventions: Python `str` is `List Char` (code-point sequences), Python `float`
is `ℚ` (the arithmetic in the sources is plain +/*/min/comparisons on small
decimals, modelled exactly), Python `dict` arguments are association lists in
insertion order, `dict.get(k, d)` is an `Option`-valued function with `getD`,
and code that can raise returns `Except`.
-/

namespace VeriText

/-- Python `str` as a sequence of code points. -/
abbrev Text := List Char

/-- `MatchType` from `src/models/common.py` (EXACT, FUZZY). -/
inductive MatchType
  | exact
  | fuzzy
deriving DecidableEq, Repr

/-- `DetectionMethod` from `src/models/common.py` (RULE). -/
inductive DetectionMethod
  | rule
deriving DecidableEq, Repr

/-- `RiskLevel` from `src/models/common.py`. -/
inductive RiskLevel
  | low
  | medium
  | high
  | critical
deriving DecidableEq, Repr

/-- `DetectionMode` from `src/models/common.py`: only RULE and HYBRID are
defined there (there is no SEMANTIC member). -/
inductive DetectionMode
  | rule
  | hybrid
deriving DecidableEq, Repr

/-- `Position` from `src/models/common.py` (fields `start`, `end`, both `ge=0`). -/
structure Position where
  start : Nat
  «end» : Nat
deriving DecidableEq, Repr

/-- `DetectionResultItem` from `src/models/detection.py`. -/
structure DetectionResultItem where
  matched_word : Text
  category : Text
  match_type : MatchType
  confidence : ℚ
  positions : List Position
  detection_method : DetectionMethod
  suggestion : Option Text
deriving DecidableEq, Repr

/-- `DetectionSummary` from `src/models/detection.py`. -/
structure DetectionSummary where
  total_matches : Nat
  categories_found : List Text
  highest_risk_category : Option Text
deriving DecidableEq, Repr

/-- `Hit` from `src/services/result_arbitrator.py`.  The source dataclass also
carries a `positions` field, but every `Hit` the arbitrator constructs is built
with `positions=None`, which `__post_init__` replaces by
`[Position(start, end)]`; the field is therefore determined by `start`/`end`
and is left out of the embedding (it is re-materialised in
`convert_to_detection_results`). -/
structure Hit where
  word : Text
  start : Nat
  «end» : Nat
  category : Text
  source : Text
  confidence : ℚ
  match_type : MatchType
  detection_method : DetectionMethod
  suggestion : Option Text
deriving DecidableEq, Repr

/-- `ArbitrationConfig` from `src/services/result_arbitrator.py`.  The two
weight dictionaries are modelled as `Option`-valued functions; the source reads
them with `dict.get(key, 1.0)`. -/
structure ArbitrationConfig where
  enable_max_matching : Bool := true
  confidence_threshold : ℚ := 1/2
  confidence_boost_factor : ℚ := 1/10
  category_weights : Text → Option ℚ
  engine_weights : Text → Option ℚ

/-- The default engine weights installed by `DetectionResultArbitrator.__init__`
(lines 70-77 of `result_arbitrator.py`). -/
def default_engine_weights (rule_name : Text) : Option ℚ :=
  if rule_name = "ExactMatchRule".data then some 1
  else if rule_name = "JiebaRule".data then some (9/10)
  else if rule_name = "RegexRule".data then some (85/100)
  else if rule_name = "SemanticRule".data then some (8/10)
  else if rule_name = "ACAutomatonRule".data then some (95/100)
  else none

/-- The configuration a default-constructed `DetectionResultArbitrator` ends up
with when no YAML category weights are available (empty category-weight dict,
default engine weights). -/
def default_config : ArbitrationConfig where
  category_weights := fun _ => none
  engine_weights := default_engine_weights

/-- Per-rule detection results: Python `Dict[str, List[DetectionResultItem]]`
in insertion order. -/
abbrev ResultsByRule := List (Text × List DetectionResultItem)

/-- `DetectionResultArbitrator._convert_to_hits` (lines 123-163): flatten the
per-rule results into `Hit`s, pre-multiplying each confidence by the source
rule's engine weight (default 1.0) clamped to 1.0; one `Hit` per position, or a
single `[0, len(word))` hit when the item carries no positions. -/
def convert_to_hits (cfg : ArbitrationConfig) (results_by_rule : ResultsByRule) :
    List Hit :=
  results_by_rule.flatMap fun rule =>
    rule.2.flatMap fun result =>
      let engine_weight := (cfg.engine_weights rule.1).getD 1
      let adjusted_confidence := min 1 (result.confidence * engine_weight)
      if result.positions = [] then
        [{ word := result.matched_word, start := 0, «end» := result.matched_word.length,
           category := result.category, source := rule.1,
           confidence := adjusted_confidence, match_type := result.match_type,
           detection_method := result.detection_method, suggestion := result.suggestion }]
      else
        result.positions.map fun pos =>
          { word := result.matched_word, start := pos.start, «end» := pos.«end»,
            category := result.category, source := rule.1,
            confidence := adjusted_confidence, match_type := result.match_type,
            detection_method := result.detection_method, suggestion := result.suggestion }

/-- The sort key of `_merge_hits_greedy` step 1: Python
`sorted(all_hits, key=lambda x: (x.start, -x.end))`, i.e. the total preorder
"key of `a` ≤ key of `b`" for `(start, -end)` in lexicographic order. -/
def hitKeyLe (a b : Hit) : Prop :=
  a.start < b.start ∨ (a.start = b.start ∧ b.«end» ≤ a.«end»)

instance : DecidableRel hitKeyLe := fun a b => by
  unfold hitKeyLe; infer_instance

instance : IsTotal Hit hitKeyLe := ⟨by intro a b; unfold hitKeyLe; omega⟩

instance : IsTrans Hit hitKeyLe := ⟨by intro a b c; unfold hitKeyLe; omega⟩

/-- The scan of `_merge_hits_greedy` step 2 (lines 187-199): walk the sorted
hits keeping `last_accepted_end`, accept a hit iff
`hit.start >= last_accepted_end`, then set `last_accepted_end = hit.end`. -/
def merge_scan : List Hit → Int → List Hit
  | [], _ => []
  | hit :: rest, last_accepted_end =>
    if last_accepted_end ≤ (hit.start : Int) then
      hit :: merge_scan rest (hit.«end» : Int)
    else
      merge_scan rest last_accepted_end

/-- `DetectionResultArbitrator._merge_hits_greedy` (lines 165-202): early
return on the empty list, then the stable sort by `(start, -end)` (Python
`sorted` is stable; `List.insertionSort` with the "key ≤ key" preorder places
ties in input order) followed by the greedy scan with
`last_accepted_end = -1`. -/
def merge_hits_greedy (all_hits : List Hit) : List Hit :=
  if all_hits = [] then []
  else merge_scan (List.insertionSort hitKeyLe all_hits) (-1)

/-- The per-rule contribution to `match_count` in
`_enhance_multi_engine_matches` (lines 214-227): scan the rule's results for
the first item with the same word and category (both inner loops `break` after
it); it contributes 1 if it has no positions, or if one of its positions starts
within 2 of the hit's start. -/
def rule_match_contribution (hit : Hit) (rule_results : List DetectionResultItem) :
    Nat :=
  match rule_results.find? (fun r =>
      decide (r.matched_word = hit.word ∧ r.category = hit.category)) with
  | none => 0
  | some r =>
    if r.positions = [] then 1
    else if r.positions.any (fun pos =>
        decide (((pos.start : Int) - (hit.start : Int)).natAbs ≤ 2)) then 1
    else 0

/-- `match_count` of `_enhance_multi_engine_matches`: sum of the per-rule
contributions over `results_by_rule.values()`. -/
def match_count (results_by_rule : ResultsByRule) (hit : Hit) : Nat :=
  (results_by_rule.map fun rule => rule_match_contribution hit rule.2).sum

/-- Body of the loop of `_enhance_multi_engine_matches` (lines 212-247): when
more than one engine matched, add `confidence_boost_factor * (match_count - 1)`
to the confidence, clamped to 1.0. -/
def enhance_hit (cfg : ArbitrationConfig) (results_by_rule : ResultsByRule)
    (hit : Hit) : Hit :=
  let count := match_count results_by_rule hit
  if 1 < count then
    { hit with
      confidence :=
        min 1 (hit.confidence + cfg.confidence_boost_factor * ((count : ℚ) - 1)) }
  else hit

/-- `DetectionResultArbitrator._enhance_multi_engine_matches` (lines 204-249). -/
def enhance_multi_engine_matches (cfg : ArbitrationConfig)
    (results_by_rule : ResultsByRule) (hits : List Hit) : List Hit :=
  hits.map (enhance_hit cfg results_by_rule)

/-- `DetectionResultArbitrator._filter_by_confidence` (lines 251-253): keep
hits with `confidence >= confidence_threshold`. -/
def filter_by_confidence (cfg : ArbitrationConfig) (hits : List Hit) : List Hit :=
  hits.filter fun hit => decide (cfg.confidence_threshold ≤ hit.confidence)

/-- `DetectionResultArbitrator._apply_category_weights` (lines 255-276):
multiply the confidence by the category weight (default 1.0) clamped to 1.0. -/
def apply_category_weights (cfg : ArbitrationConfig) (hits : List Hit) : List Hit :=
  hits.map fun hit =>
    { hit with
      confidence := min 1 (hit.confidence * (cfg.category_weights hit.category).getD 1) }

/-- `DetectionResultArbitrator._convert_to_detection_results` (lines 278-294);
`hit.positions` is always `[Position(hit.start, hit.end)]` (see `Hit`). -/
def convert_to_detection_results (hits : List Hit) : List DetectionResultItem :=
  hits.map fun hit =>
    { matched_word := hit.word, category := hit.category,
      match_type := hit.match_type, confidence := hit.confidence,
      positions := [{ start := hit.start, «end» := hit.«end» }],
      detection_method := hit.detection_method, suggestion := hit.suggestion }

/-- The sort key of `_sort_results` (lines 296-303): Python
`sorted(results, key=lambda r: (-confidence, -category_weight))`, again as the
"key ≤ key" total preorder used with a stable sort. -/
def resultKeyLe (cfg : ArbitrationConfig) (a b : DetectionResultItem) : Prop :=
  b.confidence < a.confidence ∨
    (a.confidence = b.confidence ∧
      (cfg.category_weights b.category).getD 1 ≤ (cfg.category_weights a.category).getD 1)

instance (cfg : ArbitrationConfig) : DecidableRel (resultKeyLe cfg) := fun a b => by
  unfold resultKeyLe; infer_instance

/-- `DetectionResultArbitrator._sort_results`: stable sort by
`(-confidence, -category_weight)`. -/
def sort_results (cfg : ArbitrationConfig) (results : List DetectionResultItem) :
    List DetectionResultItem :=
  List.insertionSort (resultKeyLe cfg) results

/-- `DetectionResultArbitrator._generate_summary` (lines 305-328).  Python
builds `categories_found` as `list(set(...))`, whose order is unspecified; it
is modelled as first-occurrence deduplication.  No claim depends on it. -/
def generate_summary (results : List DetectionResultItem) : DetectionSummary :=
  if results = [] then
    { total_matches := 0, categories_found := [], highest_risk_category := none }
  else
    { total_matches := results.length,
      categories_found := (results.map fun r => r.category).dedup,
      highest_risk_category := (results.head?).map fun r => r.category }

/-- `DetectionResultArbitrator.arbitrate` (lines 79-121): convert to hits,
greedy merge (when `enable_max_matching`), corroboration boost, confidence
filter, category weights, conversion back and sort, plus the summary. -/
def arbitrate (cfg : ArbitrationConfig) (results_by_rule : ResultsByRule) :
    List DetectionResultItem × DetectionSummary :=
  let all_hits := convert_to_hits cfg results_by_rule
  let merged_hits := if cfg.enable_max_matching then merge_hits_greedy all_hits else all_hits
  let enhanced_hits := enhance_multi_engine_matches cfg results_by_rule merged_hits
  let filtered_hits := filter_by_confidence cfg enhanced_hits
  let weighted_hits := apply_category_weights cfg filtered_hits
  let final_results := sort_results cfg (convert_to_detection_results weighted_hits)
  (final_results, generate_summary final_results)

/-- Python `max(r.confidence for r in results)`; only evaluated on non-empty
lists in the sources (both call sites are guarded). -/
def max_confidence : List DetectionResultItem → ℚ
  | [] => 0
  | r :: rs => rs.foldl (fun m x => max m x.confidence) r.confidence

/-- `DetectionResultArbitrator.calculate_overall_risk_level` (lines 330-362;
the literal duplicate at lines 405-437 shadows it with the same body): start
from the maximum confidence, add 0.1 per result whose category weight is
≥ 0.9, add 0.2 (5+ matches) or 0.1 (3-4 matches), then map through the
0.9/0.7/0.5 thresholds; empty results give LOW. -/
def calculate_overall_risk_level (cfg : ArbitrationConfig)
    (results : List DetectionResultItem) : RiskLevel :=
  if results = [] then .low
  else
    let weighted_score₀ := max_confidence results
    let weighted_score₁ := results.foldl
      (fun s r =>
        if (9/10 : ℚ) ≤ (cfg.category_weights r.category).getD 1 then s + 1/10 else s)
      weighted_score₀
    let weighted_score :=
      if 5 ≤ results.length then weighted_score₁ + 1/5
      else if 3 ≤ results.length then weighted_score₁ + 1/10
      else weighted_score₁
    if (9/10 : ℚ) ≤ weighted_score then .critical
    else if (7/10 : ℚ) ≤ weighted_score then .high
    else if (1/2 : ℚ) ≤ weighted_score then .medium
    else .low

/-! ### Reference definitions taken from the specification's words
(for the refinement claims; everything above is translated from the source). -/

/-- Reference scan from the spec sentence: "Scan left to right keeping
`last_accepted_end = -1`; accept a Hit iff `hit.start >= last_accepted_end`,
then set `last_accepted_end = hit.end`; otherwise discard it." -/
def merge_scan_spec : List Hit → Int → List Hit
  | [], _ => []
  | hit :: rest, last_accepted_end =>
    if last_accepted_end ≤ (hit.start : Int) then
      hit :: merge_scan_spec rest (hit.«end» : Int)
    else
      merge_scan_spec rest last_accepted_end

/-- Reference merge from the spec sentence: "sort all Hits by
`(start ascending, end descending)`" then the left-to-right scan with
`last_accepted_end` initialised to -1. -/
def merge_hits_greedy_spec (hits : List Hit) : List Hit :=
  merge_scan_spec (List.insertionSort hitKeyLe hits) (-1)

/-- Reference score from the risk-level sentence of the spec: maximum
confidence, plus 0.1 for each result whose category weight is ≥ 0.9, plus 0.2
for ≥ 5 results else 0.1 for ≥ 3 results. -/
def risk_score_spec (cfg : ArbitrationConfig) (results : List DetectionResultItem) : ℚ :=
  max_confidence results
    + (1/10) * ((results.countP fun r =>
        decide ((9/10 : ℚ) ≤ (cfg.category_weights r.category).getD 1)) : ℚ)
    + (if 5 ≤ results.length then (1/5 : ℚ)
       else if 3 ≤ results.length then (1/10 : ℚ) else 0)

/-- Reference risk level from the spec: the 0.9/0.7/0.5 thresholds applied to
`risk_score_spec`, LOW on no results. -/
def risk_level_spec (cfg : ArbitrationConfig) (results : List DetectionResultItem) :
    RiskLevel :=
  if results = [] then .low
  else if (9/10 : ℚ) ≤ risk_score_spec cfg results then .critical
  else if (7/10 : ℚ) ≤ risk_score_spec cfg results then .high
  else if (1/2 : ℚ) ≤ risk_score_spec cfg results then .medium
  else .low

/-! ### Text preprocessing (`src/services/text_processor.py`) -/

/-- The regex class `\s` as matched by `re.sub(r'\s+', ' ', text)` and the
whitespace stripped by `str.strip()`, restricted to the ASCII whitespace
characters (the Unicode-only space code points play no role in the claims). -/
def isPySpace (c : Char) : Bool :=
  c = ' ' || c = '\t' || c = '\n' || c = '\x0d' || c = '\x0b' || c = '\x0c'

/-- Worker for `re.sub(r'\s+', ' ', text)`: replace every maximal run of
whitespace by a single space; the flag records whether the previous character
was part of a whitespace run. -/
def collapse_ws_aux : Bool → Text → Text
  | _, [] => []
  | true, c :: cs =>
    if isPySpace c then collapse_ws_aux true cs
    else c :: collapse_ws_aux false cs
  | false, c :: cs =>
    if isPySpace c then ' ' :: collapse_ws_aux true cs
    else c :: collapse_ws_aux false cs

/-- `re.sub(r'\s+', ' ', text)` from `TextPreprocessor.normalize` step 3. -/
def collapse_ws (s : Text) : Text :=
  collapse_ws_aux false s

/-- Trailing-whitespace removal (the right half of `str.strip()`). -/
def rstrip_ws (s : Text) : Text :=
  s.foldr (fun c acc => if acc.isEmpty && isPySpace c then [] else c :: acc) []

/-- `str.strip()`: drop leading and trailing whitespace. -/
def py_strip (s : Text) : Text :=
  rstrip_ws (s.dropWhile isPySpace)

/-- `TextPreprocessor.normalize` (lines 26-59) with `remove_noise` at its
default `False` (the optional noise branch is not entered): empty text is
returned as-is; otherwise the OpenCC t2s conversion, then `str.lower()`, then
`re.sub(r'\s+', ' ', text).strip()`.  The external OpenCC converter and the
Python Unicode lower-casing are modelled as the code-point maps `conv` and
`low`; the idempotence theorem states its assumptions on them explicitly. -/
def normalize (conv low : Char → Char) (text : Text) : Text :=
  if text = [] then []
  else py_strip (collapse_ws ((text.map conv).map low))

/-- The sentence-terminal class `'。！？\n'` of `TextPreprocessor.split_text`. -/
def is_sentence_break (c : Char) : Bool :=
  c = '。' || c = '！' || c = '？' || c = '\n'

/-- The backward scan `for i in range(end, start + max_length // 2, -1)` of
`split_text`: walk `i` down to `lo + 1`, returning `some (i + 1)` at the first
sentence-terminal character, `none` if none is found.  (`text[i]` is only
evaluated in-range at the call site; out of range is modelled as no match.) -/
def scan_break (text : Text) (lo : Nat) (i : Nat) : Option Nat :=
  if i ≤ lo then none
  else if (match text.get? i with
           | some c => is_sentence_break c
           | none => false) then some (i + 1)
  else scan_break text lo (i - 1)
termination_by i
decreasing_by omega

/-- The `while start < len(text)` loop of `split_text` (lines 124-136):
`end = start + max_length`, adjusted to just after the nearest preceding
sentence-terminal character when `end < len(text)`; the chunk is
`text[start:end]` (Python slicing clamps at the length).  The final
`max _ (start + 1)` is only a termination guard: for `max_length ≥ 1` the
computed cut always exceeds `start` (`split_loop_cut_gt` below), so the guard
never changes the value; Python itself loops forever when `max_length = 0`. -/
def split_loop (text : Text) (max_length : Nat) (start : Nat) : List Text :=
  if start < text.length then
    let end₀ := start + max_length
    let cut :=
      if end₀ < text.length then
        match scan_break text (start + max_length / 2) end₀ with
        | some e => e
        | none => end₀
      else end₀
    let cut' := max cut (start + 1)
    (text.drop start).take (cut' - start) :: split_loop text max_length cut'
  else []
termination_by text.length - start
decreasing_by omega

/-- `TextPreprocessor.split_text` (lines 107-137). -/
def split_text (text : Text) (max_length : Nat) : List Text :=
  if text.length ≤ max_length then [text]
  else split_loop text max_length 0

/-! ### Word-list loading (`yaml_config_reader.py`, `rule_detector.py`) -/

/-- `WordlistConfig.load_words` (lines 28-48 of `yaml_config_reader.py`), on
the file's lines: `[line.strip() for line in f if line.strip()]` — each line is
stripped and kept iff non-blank.  (There is no `#` comment filter here.) -/
def load_words (lines : List Text) : List Text :=
  lines.filterMap fun line =>
    if py_strip line = [] then none else some (py_strip line)

/-- The word filter of `RuleBasedDetector.load_wordlists` (lines 70-71 of
`rule_detector.py`): `if word and not word.startswith('#')` — this legacy
detector path, unlike the registry, does skip comment lines. -/
def detector_kept_words (words : List Text) : List Text :=
  words.filter fun word => !word.isEmpty && decide (¬ word.head? = some '#')

/-! ### Detection service (`enhanced_detection_service.py`) -/

/-- Python exceptions that the service layer can see. -/
inductive PyError
  | attributeError
  | detectionError
  | other
deriving DecidableEq, Repr

/-- `DetectionConfig` from `src/models/detection.py` (defaults: HYBRID mode,
all categories, positions on, suggestions off, threshold 0.8). -/
structure DetectionConfig where
  detection_mode : DetectionMode := .hybrid
  categories : List Text := []
  return_positions : Bool := true
  return_suggestions : Bool := false
  custom_threshold : ℚ := 8/10
deriving DecidableEq, Repr

/-- `DetectionRequest` from `src/models/detection.py`. -/
structure DetectionRequest where
  text : Text
  config : DetectionConfig
deriving DecidableEq, Repr

/-- A loaded detection rule as the orchestrator sees it: its configured type
tag, enabled flag, and a `detect` that may raise (`Except`). -/
structure Rule where
  rule_type : Text
  enabled : Bool
  detect : Text → DetectionConfig → Except PyError (List DetectionResultItem)

/-- `DetectionResponse` from `src/models/detection.py`; the wall-clock
`detection_time_ms` field is not modelled. -/
structure DetectionResponse where
  is_sensitive : Bool
  risk_level : RiskLevel
  overall_score : ℚ
  detection_mode_used : DetectionMode
  results : List DetectionResultItem
  summary : DetectionSummary
deriving DecidableEq, Repr

/-- `EnhancedDetectionService._get_rules_for_mode` (lines 229-245).  For RULE
mode the non-semantic rules are returned.  For every other mode the `elif`
evaluates `DetectionMode.SEMANTIC`, but `DetectionMode` in
`src/models/common.py` (lines 9-12) defines only RULE and HYBRID, so the
attribute lookup raises `AttributeError` — modelled as an error result. -/
def get_rules_for_mode (rules : List (Text × Rule)) (mode : DetectionMode) :
    Except PyError (List (Text × Rule)) :=
  match mode with
  | .rule => .ok (rules.filter fun p => decide (¬ p.2.rule_type = "semantic".data))
  | .hybrid => .error .attributeError

/-- `EnhancedDetectionService._execute_multi_rule_detection` (lines 199-227):
run each selected enabled rule; a rule whose `detect` raises is caught and
contributes `results_by_rule[rule_name] = []`. -/
def execute_multi_rule_detection (rules : List (Text × Rule))
    (request : DetectionRequest) : Except PyError ResultsByRule :=
  match get_rules_for_mode rules request.config.detection_mode with
  | .error e => .error e
  | .ok rules_to_use =>
    .ok <| rules_to_use.foldl
      (fun results_by_rule p =>
        if !p.2.enabled then results_by_rule
        else
          match p.2.detect request.text request.config with
          | .ok results => results_by_rule ++ [(p.1, results)]
          | .error _ => results_by_rule ++ [(p.1, [])])
      []

/-- `EnhancedDetectionService.detect` (lines 141-197): reject text longer than
`settings.max_text_length` by raising `DetectionError` before any rule runs;
otherwise run the rules, arbitrate, compute the risk level and score, and
build the response.  The outer `except Exception` re-raises any failure as
`DetectionError`. -/
def detect (max_text_length : Nat) (rules : List (Text × Rule))
    (cfg : ArbitrationConfig) (request : DetectionRequest) :
    Except PyError DetectionResponse :=
  if max_text_length < request.text.length then .error .detectionError
  else
    match execute_multi_rule_detection rules request with
    | .error _ => .error .detectionError
    | .ok results_by_rule =>
      let arbitrated := arbitrate cfg results_by_rule
      let final_results := arbitrated.1
      let risk_level := calculate_overall_risk_level cfg final_results
      let overall_score := if final_results = [] then 0 else max_confidence final_results
      .ok
        { is_sensitive := decide (0 < final_results.length)
          risk_level := risk_level
          overall_score := overall_score
          detection_mode_used := request.config.detection_mode
          results := final_results
          summary := arbitrated.2 }

/-! ### Concrete inputs used by example, witness and counterexample theorems -/

/-- `cfg` with the corroboration boost disabled (used to state what the C4
amendment compares against). -/
def zero_boost (cfg : ArbitrationConfig) : ArbitrationConfig :=
  { cfg with confidence_boost_factor := 0 }

/-- Scenario-C hit: `"abc"` at [0,3) with confidence 0.6. -/
def hit_abc : Hit :=
  { word := "abc".data, start := 0, «end» := 3, category := "cat".data,
    source := "ruleA".data, confidence := 6/10, match_type := .exact,
    detection_method := .rule, suggestion := none }

/-- Scenario-C hit: `"abcd"` at [0,4) with confidence 0.5. -/
def hit_abcd : Hit :=
  { word := "abcd".data, start := 0, «end» := 4, category := "cat".data,
    source := "ruleB".data, confidence := 1/2, match_type := .exact,
    detection_method := .rule, suggestion := none }

/-- Rule A's report of `("bad", "c")`: confidence 1 at [11, 14). -/
def item_a : DetectionResultItem :=
  { matched_word := "bad".data, category := "c".data, match_type := .exact,
    confidence := 1, positions := [{ start := 11, «end» := 14 }],
    detection_method := .rule, suggestion := none }

/-- Rule B's report of the same `("bad", "c")` pair: confidence 0.5 at
[10, 13), i.e. within the start-offset tolerance of 2 of rule A's report. -/
def item_b : DetectionResultItem :=
  { matched_word := "bad".data, category := "c".data, match_type := .exact,
    confidence := 1/2, positions := [{ start := 10, «end» := 13 }],
    detection_method := .rule, suggestion := none }

/-- Per-rule input in which two rules corroborate the pair `("bad", "c")`. -/
def two_rule_input : ResultsByRule :=
  [("A".data, [item_a]), ("B".data, [item_b])]

/-- A healthy rule reporting one concrete span. -/
def rule_healthy_hit : Rule :=
  { rule_type := "exact".data, enabled := true,
    detect := fun _ _ => .ok [item_a] }

/-- A rule whose `detect` raises. -/
def rule_raising : Rule :=
  { rule_type := "jieba".data, enabled := true,
    detect := fun _ _ => .error .other }

/-- A healthy rule reporting nothing. -/
def rule_healthy_empty : Rule :=
  { rule_type := "regex".data, enabled := true,
    detect := fun _ _ => .ok [] }

/-- Three loaded rules, the middle one failing. -/
def three_rules : List (Text × Rule) :=
  [("A".data, rule_healthy_hit), ("B".data, rule_raising),
   ("C".data, rule_healthy_empty)]

/-- A short request in default HYBRID mode. -/
def request_hybrid : DetectionRequest :=
  { text := "hello".data, config := {} }

/-- The same request in RULE mode. -/
def request_rule_mode : DetectionRequest :=
  { text := "hello".data, config := { detection_mode := .rule } }

/-- Proof-infrastructure predicate: the whitespace normal form established by
`collapse_ws` — every whitespace character is a plain `' '` and no two
adjacent characters are both whitespace. -/
def ws_normal (l : Text) : Prop :=
  (∀ c ∈ l, isPySpace c = true → c = ' ') ∧
    List.Chain' (fun a b => ¬(isPySpace a = true ∧ isPySpace b = true)) l

/-! ## Theorems -/

theorem merge_scan_eq_spec (l : List Hit) :
    ∀ last : Int, merge_scan l last = merge_scan_spec l last := by
  induction l with
  | nil => intro last; rfl
  | cons h t ih =>
    intro last
    unfold merge_scan merge_scan_spec
    split <;> simp [ih]

/-- C2: with merging enabled, the arbitrator's merge stage is exactly the
spec's reference algorithm (sort by `(start asc, end desc)`, then the greedy
scan with `last_accepted_end = -1`); and on the two overlapping Scenario-C
hits `"abc"`@[0,3) conf 0.6 and `"abcd"`@[0,4) conf 0.5 it keeps `"abcd"` and
discards `"abc"`. -/
theorem merge_stage_matches_spec :
    (∀ hits : List Hit, merge_hits_greedy hits = merge_hits_greedy_spec hits) ∧
    merge_hits_greedy [hit_abc, hit_abcd] = [hit_abcd] := by
  constructor
  · intro hits
    unfold merge_hits_greedy merge_hits_greedy_spec
    by_cases h : hits = []
    · subst h
      simp [List.insertionSort, merge_scan_spec]
    · simp [h, merge_scan_eq_spec]
  · simp +decide [merge_hits_greedy, hit_abc, hit_abcd, List.insertionSort,
      List.orderedInsert, hitKeyLe, merge_scan]

theorem foldl_tenth (q : DetectionResultItem → Prop) [DecidablePred q] :
    ∀ (l : List DetectionResultItem) (a : ℚ),
      l.foldl (fun s r => if q r then s + 1/10 else s) a
        = a + (1/10) * (l.countP fun r => decide (q r)) := by
  intro l
  induction l with
  | nil => intro a; simp
  | cons x t ih =>
    intro a
    by_cases hx : q x
    · rw [List.foldl_cons, if_pos hx, ih,
        List.countP_cons_of_pos _ _ (by simpa using hx)]
      push_cast
      ring
    · rw [List.foldl_cons, if_neg hx, ih,
        List.countP_cons_of_neg _ _ (by simpa using hx)]

/-- C3: `calculate_overall_risk_level` returns LOW on the empty list and
otherwise maps the spec's score — maximum confidence, plus 0.1 per result with
category weight ≥ 0.9, plus 0.2 for ≥ 5 results else 0.1 for ≥ 3 — through the
0.9/0.7/0.5 → CRITICAL/HIGH/MEDIUM thresholds, LOW below. -/
theorem risk_level_matches_spec (cfg : ArbitrationConfig)
    (results : List DetectionResultItem) :
    calculate_overall_risk_level cfg results = risk_level_spec cfg results := by
  by_cases h : results = []
  · simp [calculate_overall_risk_level, risk_level_spec, h]
  · have hfold := foldl_tenth
      (fun r => (9/10 : ℚ) ≤ (cfg.category_weights r.category).getD 1) results
      (max_confidence results)
    have hbonus :
        (if 5 ≤ results.length then
           max_confidence results + (1/10) *
             (results.countP fun r =>
               decide ((9/10 : ℚ) ≤ (cfg.category_weights r.category).getD 1)) + 1/5
         else if 3 ≤ results.length then
           max_confidence results + (1/10) *
             (results.countP fun r =>
               decide ((9/10 : ℚ) ≤ (cfg.category_weights r.category).getD 1)) + 1/10
         else
           max_confidence results + (1/10) *
             (results.countP fun r =>
               decide ((9/10 : ℚ) ≤ (cfg.category_weights r.category).getD 1)))
        = risk_score_spec cfg results := by
      unfold risk_score_spec
      split_ifs <;> ring
    simp only [calculate_overall_risk_level, risk_level_spec, h, if_false, hfold, hbonus]

theorem load_words_strip_filter (lines : List Text) :
    load_words lines = (lines.map py_strip).filter (fun w => !w.isEmpty) := by
  induction lines with
  | nil => rfl
  | cons l t ih =>
    simp only [load_words, List.filterMap_cons, List.map_cons, List.filter_cons] at ih ⊢
    by_cases hs : py_strip l = []
    · simp [hs, ih]
    · simp [hs, ih, List.isEmpty_iff]

theorem load_words_sound (lines : List Text) :
    ∀ w ∈ load_words lines, w ≠ [] ∧ w ∈ lines.map py_strip := by
  intro w hw
  simp only [load_words, List.mem_filterMap] at hw
  obtain ⟨line, hline, hif⟩ := hw
  by_cases hs : py_strip line = []
  · simp [hs] at hif
  · simp only [if_neg hs, Option.some.injEq] at hif
    subst hif
    exact ⟨hs, List.mem_map_of_mem _ hline⟩

/-- C6 counterexample: `WordlistConfig.load_words` keeps a line starting with
`#` — on the file lines `"# comment"`, `"bad"`, `""` it loads
`["# comment", "bad"]`, so the loaded words are not "exactly the non-blank
lines that do not start with '#'", and the comment line is among the words the
enhanced service hands to each rule's `load_wordlist`. -/
theorem load_words_keeps_comments_counterexample :
    load_words ["# comment".data, "bad".data, "".data]
        = ["# comment".data, "bad".data] ∧
      ("# comment".data).head? = some '#' := by
  constructor
  · decide
  · rfl

/-- C6 amended: the registry's `load_words` keeps exactly the non-blank
stripped lines — including lines starting with `#`; the `#` comment filter
exists only in the legacy `RuleBasedDetector.load_wordlists` path
(`detector_kept_words`), which on the registry's output reduces to dropping
exactly the words starting with `#`. -/
theorem load_words_amended (lines : List Text) :
    load_words lines = (lines.map py_strip).filter (fun w => !w.isEmpty) ∧
    detector_kept_words (load_words lines)
      = (load_words lines).filter (fun w => decide (¬ w.head? = some '#')) := by
  constructor
  · exact load_words_strip_filter lines
  · unfold detector_kept_words
    apply List.filter_congr
    intro w hw
    have hne := (load_words_sound lines w hw).1
    simp [hne]

/-- C8: a request whose text exceeds the configured maximum length makes
`EnhancedDetectionService.detect` fail (the source raises `DetectionError`)
before any rule runs: the result is the same error for every rule set, so no
rule's `detect` is consulted and no partial results are produced. -/
theorem detect_rejects_oversized (max_text_length : Nat)
    (rules : List (Text × Rule)) (cfg : ArbitrationConfig)
    (request : DetectionRequest)
    (h : max_text_length < request.text.length) :
    detect max_text_length rules cfg request = .error .detectionError := by
  unfold detect
  simp [h]

theorem detect_rejects_oversized_witness :
    3 < (("hello".data : Text)).length ∧
      detect 3 three_rules default_config request_hybrid
        = .error .detectionError :=
  ⟨by decide,
    detect_rejects_oversized 3 three_rules default_config request_hybrid (by decide)⟩

theorem scan_break_gt (text : Text) (lo : Nat) :
    ∀ i e, scan_break text lo i = some e → lo + 2 ≤ e := by
  intro i
  induction i using Nat.strong_induction_on with
  | _ i ih =>
    intro e he
    rw [scan_break] at he
    split at he
    · exact absurd he (by simp)
    · split at he
      · rename_i hgt _
        simp only [Option.some.injEq] at he
        omega
      · rename_i hgt _
        exact ih (i - 1) (by omega) e he

/-- For `max_length ≥ 1` the cut computed by the loop body of `split_text`
always exceeds `start`, so the termination guard in `split_loop` never changes
the value. -/
theorem split_loop_cut_gt (text : Text) (max_length start : Nat)
    (hm : 1 ≤ max_length) :
    start <
      (if start + max_length < text.length then
        match scan_break text (start + max_length / 2) (start + max_length) with
        | some e => e
        | none => start + max_length
       else start + max_length) := by
  by_cases hlt : start + max_length < text.length
  · rw [if_pos hlt]
    cases hsb : scan_break text (start + max_length / 2) (start + max_length) with
    | none =>
      show start < start + max_length
      omega
    | some e =>
      have := scan_break_gt text (start + max_length / 2) (start + max_length) e hsb
      dsimp only
      omega
  · rw [if_neg hlt]
    omega

theorem take_drop_concat (l : Text) (s e : Nat) (hse : s ≤ e) :
    (l.drop s).take (e - s) ++ l.drop e = l.drop s := by
  have h1 : l.drop e = (l.drop s).drop (e - s) := by
    rw [List.drop_drop]
    congr 1
    omega
  rw [h1, List.take_append_drop]

theorem split_loop_join (text : Text) (max_length : Nat) :
    ∀ start, (split_loop text max_length start).flatten = text.drop start := by
  have H : ∀ k s, text.length - s = k →
      (split_loop text max_length s).flatten = text.drop s := by
    intro k
    induction k using Nat.strong_induction_on with
    | _ k ih =>
      intro s hs
      rw [split_loop]
      split
      · rename_i hlt
        dsimp only
        set cut' := max
          (if s + max_length < text.length then
            match scan_break text (s + max_length / 2) (s + max_length) with
            | some e => e
            | none => s + max_length
           else s + max_length) (s + 1) with hcut'
        have hc1 : s + 1 ≤ cut' := le_max_right _ _
        have hrec := ih (text.length - cut') (by omega) cut' rfl
        simp only [List.flatten_cons, hrec]
        exact take_drop_concat text s cut' (by omega)
      · rename_i hge
        simp [List.drop_eq_nil_of_le (by omega : text.length ≤ s)]
  intro start
  exact H (text.length - start) start rfl

/-- C10: for `max_length ≥ 1`, `split_text` terminates (it is a total
function) and the in-order concatenation of the returned chunks is exactly the
input text. -/
theorem split_text_concat (text : Text) (max_length : Nat)
    (_hm : 1 ≤ max_length) :
    (split_text text max_length).flatten = text := by
  unfold split_text
  split
  · simp
  · simpa using split_loop_join text max_length 0

theorem split_text_concat_witness :
    1 ≤ 3 ∧ (split_text "ab。cdefg".data 3).flatten = "ab。cdefg".data :=
  ⟨by decide, split_text_concat "ab。cdefg".data 3 (by decide)⟩

theorem mem_collapse_ws_aux (b : Bool) (l : Text) :
    ∀ c ∈ collapse_ws_aux b l, c = ' ' ∨ c ∈ l := by
  induction l generalizing b with
  | nil => intro c hc; simp [collapse_ws_aux] at hc
  | cons a as ih =>
    intro c hc
    by_cases ha : isPySpace a
    · cases b with
      | true =>
        rw [collapse_ws_aux, if_pos ha] at hc
        rcases ih true c hc with h | h
        · exact Or.inl h
        · exact Or.inr (List.mem_cons_of_mem _ h)
      | false =>
        rw [collapse_ws_aux, if_pos ha, List.mem_cons] at hc
        rcases hc with rfl | hc
        · exact Or.inl rfl
        · rcases ih true c hc with h | h
          · exact Or.inl h
          · exact Or.inr (List.mem_cons_of_mem _ h)
    · have hrw : collapse_ws_aux b (a :: as) = a :: collapse_ws_aux false as := by
        cases b <;> rw [collapse_ws_aux, if_neg ha]
      rw [hrw, List.mem_cons] at hc
      rcases hc with rfl | hc
      · exact Or.inr (List.mem_cons_self _ _)
      · rcases ih false c hc with h | h
        · exact Or.inl h
        · exact Or.inr (List.mem_cons_of_mem _ h)

theorem collapse_ws_aux_only_space (l : Text) :
    ∀ b, ∀ c ∈ collapse_ws_aux b l, isPySpace c = true → c = ' ' := by
  induction l with
  | nil => intro b c hc; simp [collapse_ws_aux] at hc
  | cons a as ih =>
    intro b c hc hsp
    by_cases ha : isPySpace a
    · cases b with
      | true =>
        rw [collapse_ws_aux, if_pos ha] at hc
        exact ih true c hc hsp
      | false =>
        rw [collapse_ws_aux, if_pos ha, List.mem_cons] at hc
        rcases hc with rfl | hc
        · rfl
        · exact ih true c hc hsp
    · have hrw : collapse_ws_aux b (a :: as) = a :: collapse_ws_aux false as := by
        cases b <;> rw [collapse_ws_aux, if_neg ha]
      rw [hrw, List.mem_cons] at hc
      rcases hc with rfl | hc
      · exact absurd hsp (by simpa using ha)
      · exact ih false c hc hsp

theorem collapse_ws_aux_true_head (l : Text) :
    ∀ d, (collapse_ws_aux true l).head? = some d → isPySpace d = false := by
  induction l with
  | nil => intro d hd; cases hd
  | cons a as ih =>
    intro d hd
    by_cases ha : isPySpace a
    · rw [collapse_ws_aux, if_pos ha] at hd
      exact ih d hd
    · rw [collapse_ws_aux, if_neg ha, List.head?_cons, Option.some_inj] at hd
      subst hd
      simpa using ha

theorem collapse_ws_aux_chain (l : Text) :
    ∀ b, List.Chain' (fun a b => ¬(isPySpace a = true ∧ isPySpace b = true))
      (collapse_ws_aux b l) := by
  induction l with
  | nil => intro b; cases b <;> simp [collapse_ws_aux]
  | cons a as ih =>
    intro b
    by_cases ha : isPySpace a
    · cases b with
      | true =>
        rw [collapse_ws_aux, if_pos ha]
        exact ih true
      | false =>
        rw [collapse_ws_aux, if_pos ha, List.chain'_cons']
        refine ⟨?_, ih true⟩
        intro y hy
        have := collapse_ws_aux_true_head as y hy
        simp [this]
    · have hrw : collapse_ws_aux b (a :: as) = a :: collapse_ws_aux false as := by
        cases b <;> rw [collapse_ws_aux, if_neg ha]
      rw [hrw, List.chain'_cons']
      refine ⟨?_, ih false⟩
      intro y _
      simp [ha]

theorem collapse_ws_aux_id (l : Text) :
    ∀ b : Bool, (∀ c ∈ l, isPySpace c = true → c = ' ') →
      List.Chain' (fun a b => ¬(isPySpace a = true ∧ isPySpace b = true)) l →
      (b = true → ∀ d, l.head? = some d → isPySpace d = false) →
      collapse_ws_aux b l = l := by
  induction l with
  | nil => intro b _ _ _; cases b <;> rfl
  | cons a as ih =>
    intro b honly hch hhd
    by_cases ha : isPySpace a
    · cases b with
      | true => exact absurd (hhd rfl a rfl) (by simpa using ha)
      | false =>
        have ha' : a = ' ' := honly a (List.mem_cons_self _ _) ha
        rw [collapse_ws_aux, if_pos ha]
        rw [List.chain'_cons'] at hch
        have htail : collapse_ws_aux true as = as := by
          refine ih true (fun c hc => honly c (List.mem_cons_of_mem _ hc)) hch.2 ?_
          intro _ d hd
          have := hch.1 d hd
          by_contra hcon
          simp only [Bool.not_eq_false] at hcon
          exact this ⟨ha, hcon⟩
        rw [htail, ha']
    · have hrw : collapse_ws_aux b (a :: as) = a :: collapse_ws_aux false as := by
        cases b <;> rw [collapse_ws_aux, if_neg ha]
      rw [List.chain'_cons'] at hch
      rw [hrw, ih false (fun c hc => honly c (List.mem_cons_of_mem _ hc)) hch.2 (by simp)]

theorem rstrip_ws_cons (a : Char) (as : Text) :
    rstrip_ws (a :: as)
      = if (rstrip_ws as).isEmpty && isPySpace a then [] else a :: rstrip_ws as := rfl

theorem rstrip_ws_exists_append (l : Text) : ∃ t, l = rstrip_ws l ++ t := by
  induction l with
  | nil => exact ⟨[], rfl⟩
  | cons a as ih =>
    rw [rstrip_ws_cons]
    by_cases hif : (rstrip_ws as).isEmpty && isPySpace a
    · exact ⟨a :: as, by rw [if_pos hif]; rfl⟩
    · obtain ⟨t, ht⟩ := ih
      exact ⟨t, by rw [if_neg hif, List.cons_append, ← ht]⟩

theorem dropWhile_exists_append (p : Char → Bool) (l : Text) :
    ∃ t, l = t ++ l.dropWhile p :=
  ⟨l.takeWhile p, (List.takeWhile_append_dropWhile (p := p) (l := l)).symm⟩

theorem mem_py_strip (l : Text) : ∀ c ∈ py_strip l, c ∈ l := by
  intro c hc
  unfold py_strip at hc
  obtain ⟨t, ht⟩ := rstrip_ws_exists_append (l.dropWhile isPySpace)
  have h1 : c ∈ l.dropWhile isPySpace := by
    rw [ht]
    exact List.mem_append_left _ hc
  obtain ⟨t', ht'⟩ := dropWhile_exists_append isPySpace l
  rw [ht']
  exact List.mem_append_right _ h1

theorem ws_normal_py_strip (l : Text) (h : ws_normal l) : ws_normal (py_strip l) := by
  obtain ⟨h1, h2⟩ := h
  constructor
  · intro c hc
    exact h1 c (mem_py_strip l c hc)
  · unfold py_strip
    obtain ⟨t', ht'⟩ := dropWhile_exists_append isPySpace l
    have hdw : List.Chain' (fun a b => ¬(isPySpace a = true ∧ isPySpace b = true))
        (l.dropWhile isPySpace) := by
      rw [ht'] at h2
      exact h2.right_of_append
    obtain ⟨t, ht⟩ := rstrip_ws_exists_append (l.dropWhile isPySpace)
    rw [ht] at hdw
    exact hdw.left_of_append

theorem ws_normal_collapse_ws (l : Text) : ws_normal (collapse_ws l) :=
  ⟨collapse_ws_aux_only_space l false, collapse_ws_aux_chain l false⟩

theorem collapse_ws_eq_self (l : Text) (h : ws_normal l) : collapse_ws l = l :=
  collapse_ws_aux_id l false h.1 h.2 (by simp)

theorem head?_dropWhile_not (p : Char → Bool) (l : Text) :
    ∀ d, (l.dropWhile p).head? = some d → p d = false := by
  induction l with
  | nil => intro d hd; cases hd
  | cons a as ih =>
    intro d hd
    by_cases ha : p a
    · rw [List.dropWhile_cons_of_pos ha] at hd
      exact ih d hd
    · rw [List.dropWhile_cons_of_neg ha, List.head?_cons, Option.some_inj] at hd
      subst hd
      simpa using ha

theorem head?_rstrip_ws (l : Text) :
    ∀ d, (rstrip_ws l).head? = some d → l.head? = some d := by
  cases l with
  | nil => intro d hd; cases hd
  | cons a as =>
    intro d hd
    rw [rstrip_ws_cons] at hd
    by_cases hif : (rstrip_ws as).isEmpty && isPySpace a
    · rw [if_pos hif] at hd; cases hd
    · rw [if_neg hif, List.head?_cons, Option.some_inj] at hd
      rw [List.head?_cons, hd]

theorem dropWhile_of_head_neg (p : Char → Bool) (l : Text) (d : Char)
    (hd : l.head? = some d) (hp : p d = false) : l.dropWhile p = l := by
  cases l with
  | nil => cases hd
  | cons a as =>
    rw [List.head?_cons, Option.some_inj] at hd
    subst hd
    exact List.dropWhile_cons_of_neg (by simp [hp])

theorem rstrip_ws_idem (l : Text) : rstrip_ws (rstrip_ws l) = rstrip_ws l := by
  induction l with
  | nil => rfl
  | cons a as ih =>
    rw [rstrip_ws_cons]
    by_cases hif : (rstrip_ws as).isEmpty && isPySpace a
    · rw [if_pos hif]; rfl
    · rw [if_neg hif, rstrip_ws_cons, ih]
      rw [if_neg hif]

theorem py_strip_idem (l : Text) : py_strip (py_strip l) = py_strip l := by
  by_cases hnil : py_strip l = []
  · rw [hnil]; rfl
  · have hdw : (py_strip l).dropWhile isPySpace = py_strip l := by
      obtain ⟨d, hd⟩ : ∃ d, (py_strip l).head? = some d := by
        cases hx : py_strip l with
        | nil => exact absurd hx hnil
        | cons x xs => exact ⟨x, rfl⟩
      have hd' : (l.dropWhile isPySpace).head? = some d := head?_rstrip_ws _ d hd
      have hp : isPySpace d = false := head?_dropWhile_not isPySpace l d hd'
      exact dropWhile_of_head_neg isPySpace _ d hd hp
    show rstrip_ws ((py_strip l).dropWhile isPySpace) = py_strip l
    rw [hdw]
    exact rstrip_ws_idem _

/-- C5: normalization is idempotent (with `remove_noise` at its default
`False`).  The external transforms are assumed to behave as the sources rely
on: `low` (Python `str.lower`) is idempotent and fixes `' '`, and `conv`
(OpenCC t2s) fixes `' '` and the already-converted-and-lowered characters. -/
theorem normalize_idempotent (conv low : Char → Char)
    (hconv_sp : conv ' ' = ' ') (hlow_sp : low ' ' = ' ')
    (hlow_idem : ∀ c, low (low c) = low c)
    (hconv_low : ∀ c, conv (low (conv c)) = low (conv c))
    (text : Text) :
    normalize conv low (normalize conv low text) = normalize conv low text := by
  by_cases h0 : text = []
  · subst h0; rfl
  · have hueq : normalize conv low text
        = py_strip (collapse_ws ((text.map conv).map low)) := by
      rw [normalize, if_neg h0]
    obtain ⟨u, hu⟩ : ∃ u, normalize conv low text = u := ⟨_, rfl⟩
    rw [hu] at hueq ⊢
    by_cases hunil : u = []
    · simp [normalize, hunil]
    · have hchar : ∀ c ∈ u, c = ' ' ∨ ∃ c₀, c = low (conv c₀) := by
        intro c hc
        rw [hueq] at hc
        have hc2 : c ∈ collapse_ws ((text.map conv).map low) := mem_py_strip _ c hc
        rcases mem_collapse_ws_aux false _ c hc2 with h | h
        · exact Or.inl h
        · right
          simp only [List.mem_map] at h
          obtain ⟨c₁, ⟨c₀, _, rfl⟩, rfl⟩ := h
          exact ⟨c₀, rfl⟩
      have hmapc : u.map conv = u := by
        have : ∀ c ∈ u, conv c = c := by
          intro c hc
          rcases hchar c hc with rfl | ⟨c₀, rfl⟩
          · exact hconv_sp
          · exact hconv_low c₀
        exact (List.map_congr_left this).trans (by simp)
      have hmapl : u.map low = u := by
        have : ∀ c ∈ u, low c = c := by
          intro c hc
          rcases hchar c hc with rfl | ⟨c₀, rfl⟩
          · exact hlow_sp
          · exact hlow_idem (conv c₀)
        exact (List.map_congr_left this).trans (by simp)
      have hnorm : ws_normal u := by
        rw [hueq]
        exact ws_normal_py_strip _ (ws_normal_collapse_ws _)
      calc normalize conv low u
          = py_strip (collapse_ws ((u.map conv).map low)) := by
            rw [normalize, if_neg hunil]
        _ = py_strip (collapse_ws u) := by rw [hmapc, hmapl]
        _ = py_strip u := by rw [collapse_ws_eq_self u hnorm]
        _ = u := by rw [hueq, py_strip_idem]

theorem merge_scan_sublist (l : List Hit) :
    ∀ last : Int, List.Sublist (merge_scan l last) l := by
  induction l with
  | nil => intro last; simp [merge_scan]
  | cons h t ih =>
    intro last
    rw [merge_scan]
    split
    · exact (ih _).cons₂ h
    · exact (ih _).cons h

theorem mem_merge_hits_greedy (all_hits : List Hit) :
    ∀ h ∈ merge_hits_greedy all_hits, h ∈ all_hits := by
  intro h hm
  unfold merge_hits_greedy at hm
  split at hm
  · cases hm
  · have hsub := (merge_scan_sublist (List.insertionSort hitKeyLe all_hits) (-1)).subset hm
    exact (List.perm_insertionSort hitKeyLe all_hits).subset hsub

theorem merge_scan_start_ge (l : List Hit) :
    ∀ last : Int, List.Pairwise (fun a b => a.start ≤ b.start) l →
      ∀ b ∈ merge_scan l last, last ≤ (b.start : Int) := by
  induction l with
  | nil => intro last _ b hb; cases hb
  | cons h t ih =>
    intro last hp b hb
    rw [List.pairwise_cons] at hp
    rw [merge_scan] at hb
    split at hb
    · rename_i hacc
      rcases List.mem_cons.mp hb with rfl | hb'
      · exact hacc
      · have hbt : b ∈ t := (merge_scan_sublist t _).subset hb'
        have hsb : h.start ≤ b.start := hp.1 b hbt
        calc last ≤ (h.start : Int) := hacc
          _ ≤ (b.start : Int) := by exact_mod_cast hsb
    · exact ih last hp.2 b hb

theorem merge_scan_pairwise (l : List Hit) :
    ∀ last : Int, List.Pairwise (fun a b => a.start ≤ b.start) l →
      List.Pairwise (fun a b => a.«end» ≤ b.start) (merge_scan l last) := by
  induction l with
  | nil => intro last _; simp [merge_scan]
  | cons h t ih =>
    intro last hp
    rw [List.pairwise_cons] at hp
    rw [merge_scan]
    split
    · refine List.Pairwise.cons ?_ (ih _ hp.2)
      intro b hb
      have := merge_scan_start_ge t (h.«end» : Int) hp.2 b hb
      exact_mod_cast this
    · exact ih last hp.2

theorem insertionSort_start_mono (l : List Hit) :
    List.Pairwise (fun a b => a.start ≤ b.start) (List.insertionSort hitKeyLe l) := by
  have hs := List.sorted_insertionSort hitKeyLe l
  exact hs.imp (fun {a b} hab => by rcases hab with h | ⟨h, _⟩ <;> omega)

theorem merge_pairwise (all_hits : List Hit) :
    List.Pairwise (fun a b => a.«end» ≤ b.start) (merge_hits_greedy all_hits) := by
  unfold merge_hits_greedy
  split
  · simp
  · exact merge_scan_pairwise _ (-1) (insertionSort_start_mono all_hits)

theorem enhance_hit_start (cfg : ArbitrationConfig) (rbr : ResultsByRule) (h : Hit) :
    (enhance_hit cfg rbr h).start = h.start := by
  simp only [enhance_hit]; split <;> rfl

theorem enhance_hit_end (cfg : ArbitrationConfig) (rbr : ResultsByRule) (h : Hit) :
    (enhance_hit cfg rbr h).«end» = h.«end» := by
  simp only [enhance_hit]; split <;> rfl

/-- C1: with merging enabled (the default), no two distinct items of the final
result list of `arbitrate` have overlapping spans — for any positions `pa` of
one item and `pb` of another, not (`pa.start < pb.end` and
`pb.start < pa.end`). -/
theorem arbitrate_no_overlap (cfg : ArbitrationConfig) (rbr : ResultsByRule)
    (hm : cfg.enable_max_matching = true) :
    List.Pairwise
      (fun a b => ∀ pa ∈ a.positions, ∀ pb ∈ b.positions,
        ¬(pa.start < pb.«end» ∧ pb.start < pa.«end»))
      (arbitrate cfg rbr).1 := by
  simp only [arbitrate]
  rw [if_pos hm]
  have h1 := merge_pairwise (convert_to_hits cfg rbr)
  have h2 : List.Pairwise (fun a b => a.«end» ≤ b.start)
      (enhance_multi_engine_matches cfg rbr
        (merge_hits_greedy (convert_to_hits cfg rbr))) := by
    unfold enhance_multi_engine_matches
    rw [List.pairwise_map]
    exact h1.imp fun {a b} hab => by
      rw [enhance_hit_start, enhance_hit_end]; exact hab
  have h3 : List.Pairwise (fun a b => a.«end» ≤ b.start)
      (filter_by_confidence cfg
        (enhance_multi_engine_matches cfg rbr
          (merge_hits_greedy (convert_to_hits cfg rbr)))) :=
    h2.sublist (List.filter_sublist _)
  have h4 : List.Pairwise (fun a b => a.«end» ≤ b.start)
      (apply_category_weights cfg
        (filter_by_confidence cfg
          (enhance_multi_engine_matches cfg rbr
            (merge_hits_greedy (convert_to_hits cfg rbr))))) := by
    unfold apply_category_weights
    rw [List.pairwise_map]
    exact h3.imp fun {a b} hab => hab
  have h5 : List.Pairwise
      (fun a b => ∀ pa ∈ a.positions, ∀ pb ∈ b.positions,
        ¬(pa.start < pb.«end» ∧ pb.start < pa.«end»))
      (convert_to_detection_results
        (apply_category_weights cfg
          (filter_by_confidence cfg
            (enhance_multi_engine_matches cfg rbr
              (merge_hits_greedy (convert_to_hits cfg rbr)))))) := by
    unfold convert_to_detection_results
    rw [List.pairwise_map]
    refine h4.imp fun {a b} hab => ?_
    intro pa hpa pb hpb
    simp only [List.mem_singleton] at hpa hpb
    subst hpa; subst hpb
    simp only
    omega
  have hsymm : Symmetric
      (fun a b : DetectionResultItem => ∀ pa ∈ a.positions, ∀ pb ∈ b.positions,
        ¬(pa.start < pb.«end» ∧ pb.start < pa.«end»)) := by
    intro a b hab pb hpb pa hpa hcon
    exact hab pa hpa pb hpb ⟨hcon.2, hcon.1⟩
  unfold sort_results
  refine ((List.perm_insertionSort (resultKeyLe cfg) _).pairwise_iff ?_).mpr h5
  exact @hsymm

theorem arbitrate_no_overlap_witness :
    default_config.enable_max_matching = true ∧
      List.Pairwise
        (fun a b => ∀ pa ∈ a.positions, ∀ pb ∈ b.positions,
          ¬(pa.start < pb.«end» ∧ pb.start < pa.«end»))
        (arbitrate default_config two_rule_input).1 :=
  ⟨rfl, arbitrate_no_overlap default_config two_rule_input rfl⟩

theorem normalize_idempotent_witness :
    ((id : Char → Char) ' ' = ' ') ∧ ((id : Char → Char) ' ' = ' ') ∧
      (∀ c : Char, id (id c) = id c) ∧ (∀ c : Char, id (id (id c)) = id (id c)) ∧
      normalize id id (normalize id id "  Ab  c。 ".data)
        = normalize id id "  Ab  c。 ".data :=
  ⟨rfl, rfl, fun _ => rfl, fun _ => rfl,
    normalize_idempotent id id rfl rfl (fun _ => rfl) (fun _ => rfl) "  Ab  c。 ".data⟩

theorem hits_conf_le_one (cfg : ArbitrationConfig) (rbr : ResultsByRule) :
    ∀ h ∈ convert_to_hits cfg rbr, h.confidence ≤ 1 := by
  intro h hh
  unfold convert_to_hits at hh
  simp only [List.mem_flatMap] at hh
  obtain ⟨rule, _, hh⟩ := hh
  obtain ⟨result, _, hh⟩ := hh
  split at hh
  · simp only [List.mem_singleton] at hh
    subst hh
    exact min_le_left _ _
  · rw [List.mem_map] at hh
    obtain ⟨pos, _, rfl⟩ := hh
    exact min_le_left _ _

theorem hits_conf_bounds (cfg : ArbitrationConfig) (rbr : ResultsByRule)
    (he : ∀ rn : Text, 0 ≤ (cfg.engine_weights rn).getD 1)
    (hin : ∀ p ∈ rbr, ∀ r ∈ p.2, 0 ≤ r.confidence ∧ r.confidence ≤ 1) :
    ∀ h ∈ convert_to_hits cfg rbr, 0 ≤ h.confidence ∧ h.confidence ≤ 1 := by
  intro h hh
  unfold convert_to_hits at hh
  simp only [List.mem_flatMap] at hh
  obtain ⟨rule, hrule, hh⟩ := hh
  obtain ⟨result, hresult, hh⟩ := hh
  have h0 : 0 ≤ result.confidence := (hin rule hrule result hresult).1
  have hbnd : 0 ≤ min (1:ℚ) (result.confidence * (cfg.engine_weights rule.1).getD 1) ∧
      min (1:ℚ) (result.confidence * (cfg.engine_weights rule.1).getD 1) ≤ 1 :=
    ⟨le_min (by norm_num) (mul_nonneg h0 (he rule.1)), min_le_left _ _⟩
  split at hh
  · simp only [List.mem_singleton] at hh
    subst hh
    exact hbnd
  · rw [List.mem_map] at hh
    obtain ⟨pos, _, rfl⟩ := hh
    exact hbnd

theorem mem_merged (cfg : ArbitrationConfig) (rbr : ResultsByRule) :
    ∀ h ∈ (if cfg.enable_max_matching then
        merge_hits_greedy (convert_to_hits cfg rbr)
      else convert_to_hits cfg rbr),
      h ∈ convert_to_hits cfg rbr := by
  intro h hh
  split at hh
  · exact mem_merge_hits_greedy _ h hh
  · exact hh

theorem enhance_hit_bounds (cfg : ArbitrationConfig) (rbr : ResultsByRule)
    (hb : 0 ≤ cfg.confidence_boost_factor) (u : Hit)
    (h0 : 0 ≤ u.confidence) (h1 : u.confidence ≤ 1) :
    0 ≤ (enhance_hit cfg rbr u).confidence ∧ (enhance_hit cfg rbr u).confidence ≤ 1 := by
  simp only [enhance_hit]
  split
  · rename_i hcount
    constructor
    · refine le_min (by norm_num) (add_nonneg h0 (mul_nonneg hb ?_))
      have hcast : (1:ℚ) ≤ (match_count rbr u : ℚ) := by exact_mod_cast hcount.le
      linarith
    · exact min_le_left _ _
  · exact ⟨h0, h1⟩

/-- C9: for every per-rule input whose item confidences lie in [0, 1] (and the
system's nonnegative engine weights, category weights and boost factor), every
item returned by `arbitrate` has confidence in [0, 1]: engine weighting,
corroboration boosting and category weighting each clamp at 1.0 and never go
negative. -/
theorem arbitrate_confidence_bounds (cfg : ArbitrationConfig) (rbr : ResultsByRule)
    (he : ∀ rn : Text, 0 ≤ (cfg.engine_weights rn).getD 1)
    (hw : ∀ cat : Text, 0 ≤ (cfg.category_weights cat).getD 1)
    (hb : 0 ≤ cfg.confidence_boost_factor)
    (hin : ∀ p ∈ rbr, ∀ r ∈ p.2, 0 ≤ r.confidence ∧ r.confidence ≤ 1) :
    ∀ x ∈ (arbitrate cfg rbr).1, 0 ≤ x.confidence ∧ x.confidence ≤ 1 := by
  intro x hx
  simp only [arbitrate] at hx
  unfold sort_results at hx
  have hx1 := (List.perm_insertionSort (resultKeyLe cfg) _).subset hx
  unfold convert_to_detection_results at hx1
  rw [List.mem_map] at hx1
  obtain ⟨w, hwmem, rfl⟩ := hx1
  unfold apply_category_weights at hwmem
  rw [List.mem_map] at hwmem
  obtain ⟨v, hvmem, rfl⟩ := hwmem
  unfold filter_by_confidence at hvmem
  rw [List.mem_filter] at hvmem
  obtain ⟨hvmem, -⟩ := hvmem
  unfold enhance_multi_engine_matches at hvmem
  rw [List.mem_map] at hvmem
  obtain ⟨u, humem, rfl⟩ := hvmem
  have humem' : u ∈ convert_to_hits cfg rbr := mem_merged cfg rbr u humem
  have hu := hits_conf_bounds cfg rbr he hin u humem'
  have hv := enhance_hit_bounds cfg rbr hb u hu.1 hu.2
  constructor
  · exact le_min (by norm_num) (mul_nonneg hv.1 (hw _))
  · exact min_le_left _ _

theorem arbitrate_confidence_bounds_witness :
    (∀ rn : Text, 0 ≤ (default_config.engine_weights rn).getD 1) ∧
    (∀ cat : Text, 0 ≤ (default_config.category_weights cat).getD 1) ∧
    0 ≤ default_config.confidence_boost_factor ∧
    (∀ p ∈ two_rule_input, ∀ r ∈ p.2, 0 ≤ r.confidence ∧ r.confidence ≤ 1) ∧
    (∀ x ∈ (arbitrate default_config two_rule_input).1,
      0 ≤ x.confidence ∧ x.confidence ≤ 1) := by
  have he : ∀ rn : Text, 0 ≤ (default_config.engine_weights rn).getD 1 := by
    intro rn
    simp only [default_config, default_engine_weights]
    split_ifs <;> norm_num
  have hw : ∀ cat : Text, 0 ≤ (default_config.category_weights cat).getD 1 := by
    intro cat
    simp [default_config]
  have hb : (0:ℚ) ≤ default_config.confidence_boost_factor := by
    norm_num [default_config]
  have hin : ∀ p ∈ two_rule_input, ∀ r ∈ p.2, 0 ≤ r.confidence ∧ r.confidence ≤ 1 := by
    intro p hp r hr
    simp only [two_rule_input, List.mem_cons, List.not_mem_nil, or_false] at hp
    rcases hp with rfl | rfl <;>
      simp only [List.mem_singleton] at hr <;> subst hr <;>
      constructor <;> norm_num [item_a, item_b]
  exact ⟨he, hw, hb, hin,
    arbitrate_confidence_bounds default_config two_rule_input he hw hb hin⟩

theorem enhance_hit_zero (cfg : ArbitrationConfig) (rbr : ResultsByRule) (h : Hit)
    (hle : h.confidence ≤ 1) : enhance_hit (zero_boost cfg) rbr h = h := by
  simp only [enhance_hit]
  split
  · have hz : (zero_boost cfg).confidence_boost_factor = 0 := rfl
    rw [hz, zero_mul, add_zero, min_eq_right hle]
  · rfl

theorem enhance_hit_mono (cfg : ArbitrationConfig) (rbr : ResultsByRule) (h : Hit)
    (hb : 0 ≤ cfg.confidence_boost_factor) (hle : h.confidence ≤ 1) :
    h.confidence ≤ (enhance_hit cfg rbr h).confidence := by
  simp only [enhance_hit]
  split
  · rename_i hcount
    refine le_min hle (le_add_of_nonneg_right (mul_nonneg hb ?_))
    have hcast : (1:ℚ) ≤ (match_count rbr h : ℚ) := by exact_mod_cast hcount.le
    linarith
  · exact le_refl _

theorem enhance_hit_preserves (cfg : ArbitrationConfig) (rbr : ResultsByRule) (h : Hit) :
    (enhance_hit cfg rbr h).word = h.word ∧ (enhance_hit cfg rbr h).category = h.category ∧
      (enhance_hit cfg rbr h).start = h.start ∧ (enhance_hit cfg rbr h).«end» = h.«end» := by
  simp only [enhance_hit]
  split <;> exact ⟨rfl, rfl, rfl, rfl⟩

theorem boost_monotone_core (cfg : ArbitrationConfig) (rbr : ResultsByRule)
    (hb : 0 ≤ cfg.confidence_boost_factor)
    (hw : ∀ cat : Text, 0 ≤ (cfg.category_weights cat).getD 1)
    (M : List Hit) (hMconf : ∀ h ∈ M, h.confidence ≤ 1) :
    ∀ y ∈ convert_to_detection_results (apply_category_weights cfg
        (filter_by_confidence cfg (enhance_multi_engine_matches (zero_boost cfg) rbr M))),
      ∃ x ∈ convert_to_detection_results (apply_category_weights cfg
        (filter_by_confidence cfg (enhance_multi_engine_matches cfg rbr M))),
        x.matched_word = y.matched_word ∧ x.category = y.category ∧
          x.positions = y.positions ∧ y.confidence ≤ x.confidence := by
  intro y hy
  have hzero : enhance_multi_engine_matches (zero_boost cfg) rbr M = M := by
    unfold enhance_multi_engine_matches
    have hid : ∀ h ∈ M, enhance_hit (zero_boost cfg) rbr h = h :=
      fun h hh => enhance_hit_zero cfg rbr h (hMconf h hh)
    exact (List.map_congr_left hid).trans (by simp)
  rw [hzero] at hy
  unfold convert_to_detection_results at hy
  rw [List.mem_map] at hy
  obtain ⟨w, hwm, rfl⟩ := hy
  unfold apply_category_weights at hwm
  rw [List.mem_map] at hwm
  obtain ⟨v, hvm, rfl⟩ := hwm
  unfold filter_by_confidence at hvm
  rw [List.mem_filter, decide_eq_true_eq] at hvm
  obtain ⟨hvM, hvθ⟩ := hvm
  have hv1 : v.confidence ≤ 1 := hMconf v hvM
  have hmono := enhance_hit_mono cfg rbr v hb hv1
  obtain ⟨hfw, hfc, hfs, hfe⟩ := enhance_hit_preserves cfg rbr v
  refine ⟨{ matched_word := (enhance_hit cfg rbr v).word,
            category := (enhance_hit cfg rbr v).category,
            match_type := (enhance_hit cfg rbr v).match_type,
            confidence := min 1 ((enhance_hit cfg rbr v).confidence *
              (cfg.category_weights (enhance_hit cfg rbr v).category).getD 1),
            positions := [{ start := (enhance_hit cfg rbr v).start,
                            «end» := (enhance_hit cfg rbr v).«end» }],
            detection_method := (enhance_hit cfg rbr v).detection_method,
            suggestion := (enhance_hit cfg rbr v).suggestion }, ?_, ?_, ?_, ?_, ?_⟩
  · unfold convert_to_detection_results apply_category_weights filter_by_confidence
      enhance_multi_engine_matches
    refine List.mem_map_of_mem _ (List.mem_map_of_mem _ ?_)
    rw [List.mem_filter, decide_eq_true_eq]
    exact ⟨List.mem_map_of_mem _ hvM, le_trans hvθ hmono⟩
  · exact hfw
  · exact hfc
  · show [Position.mk (enhance_hit cfg rbr v).start (enhance_hit cfg rbr v).«end»]
        = [Position.mk v.start v.«end»]
    rw [hfs, hfe]
  · show min 1 (v.confidence * (cfg.category_weights v.category).getD 1) ≤
      min 1 ((enhance_hit cfg rbr v).confidence *
        (cfg.category_weights (enhance_hit cfg rbr v).category).getD 1)
    rw [hfc]
    exact min_le_min (le_refl _) (mul_le_mul_of_nonneg_right hmono (hw _))

/-- C4 amended: corroboration never lowers a pair's final confidence — every
item `arbitrate` would output with the corroboration boost disabled (factor 0)
appears in the actual output with the same word, category and span and a
confidence at least as large (clamped at 1.0).  The original claim — final
confidence ≥ what ANY single corroborating rule would have produced alone — is
false, because the greedy merge can keep the weaker rule's hit (see the
counterexample). -/
theorem arbitrate_boost_monotone (cfg : ArbitrationConfig) (rbr : ResultsByRule)
    (hb : 0 ≤ cfg.confidence_boost_factor)
    (hw : ∀ cat : Text, 0 ≤ (cfg.category_weights cat).getD 1) :
    ∀ y ∈ (arbitrate (zero_boost cfg) rbr).1, ∃ x ∈ (arbitrate cfg rbr).1,
      x.matched_word = y.matched_word ∧ x.category = y.category ∧
        x.positions = y.positions ∧ y.confidence ≤ x.confidence := by
  intro y hy
  simp only [arbitrate] at hy ⊢
  unfold sort_results at hy ⊢
  have hy1 := (List.perm_insertionSort (resultKeyLe (zero_boost cfg)) _).subset hy
  have hy2 : y ∈ convert_to_detection_results (apply_category_weights cfg
      (filter_by_confidence cfg (enhance_multi_engine_matches (zero_boost cfg) rbr
        (if cfg.enable_max_matching then merge_hits_greedy (convert_to_hits cfg rbr)
         else convert_to_hits cfg rbr)))) := hy1
  have hMconf : ∀ h ∈ (if cfg.enable_max_matching then
      merge_hits_greedy (convert_to_hits cfg rbr) else convert_to_hits cfg rbr),
      h.confidence ≤ 1 :=
    fun h hh => hits_conf_le_one cfg rbr h (mem_merged cfg rbr h hh)
  obtain ⟨x, hx, hfields⟩ := boost_monotone_core cfg rbr hb hw _ hMconf y hy2
  exact ⟨x, (List.perm_insertionSort (resultKeyLe cfg) _).symm.subset hx, hfields⟩

theorem arbitrate_boost_monotone_witness :
    0 ≤ default_config.confidence_boost_factor ∧
    (∀ cat : Text, 0 ≤ (default_config.category_weights cat).getD 1) ∧
    (∀ y ∈ (arbitrate (zero_boost default_config) two_rule_input).1,
      ∃ x ∈ (arbitrate default_config two_rule_input).1,
        x.matched_word = y.matched_word ∧ x.category = y.category ∧
          x.positions = y.positions ∧ y.confidence ≤ x.confidence) := by
  have hb : (0:ℚ) ≤ default_config.confidence_boost_factor := by
    norm_num [default_config]
  have hw : ∀ cat : Text, 0 ≤ (default_config.category_weights cat).getD 1 := by
    intro cat
    simp [default_config]
  exact ⟨hb, hw, arbitrate_boost_monotone default_config two_rule_input hb hw⟩

/-- C4 counterexample: rules A and B independently report the pair
`("bad", "c")` at starts 11 and 10 (within tolerance 2), A with confidence 1
and B with 0.5.  The greedy merge keeps B's hit (earlier start), so the pair's
final confidence through the full pipeline is 0.5 + 0.1 = 0.6, strictly less
than the 1.0 that rule A alone would have produced — refuting the claim, with
no clamping involved. -/
theorem corroboration_not_monotone_counterexample :
    item_a.matched_word = item_b.matched_word ∧
    item_a.category = item_b.category ∧
    (∀ pa ∈ item_a.positions, ∀ pb ∈ item_b.positions,
      ((pa.start : Int) - (pb.start : Int)).natAbs ≤ 2) ∧
    ((arbitrate default_config two_rule_input).1.map fun r => r.confidence) = [3/5] ∧
    ((arbitrate default_config [("A".data, [item_a])]).1.map fun r => r.confidence) = [1] ∧
    (3/5 : ℚ) < 1 := by
  refine ⟨rfl, rfl, by decide, ?_, ?_, by norm_num⟩
  · simp +decide [arbitrate, convert_to_hits, merge_hits_greedy, merge_scan,
      List.insertionSort, List.orderedInsert, hitKeyLe, enhance_multi_engine_matches,
      enhance_hit, match_count, rule_match_contribution, List.find?,
      filter_by_confidence, apply_category_weights, convert_to_detection_results,
      sort_results, resultKeyLe, default_config, default_engine_weights, item_a,
      item_b, two_rule_input, min_def]
    norm_num
  · simp +decide [arbitrate, convert_to_hits, merge_hits_greedy, merge_scan,
      List.insertionSort, List.orderedInsert, hitKeyLe, enhance_multi_engine_matches,
      enhance_hit, match_count, rule_match_contribution, List.find?,
      filter_by_confidence, apply_category_weights, convert_to_detection_results,
      sort_results, resultKeyLe, default_config, default_engine_weights, item_a,
      min_def]
    norm_num

/-- C7 (code bug): per-rule failures ARE isolated by
`_execute_multi_rule_detection` — in RULE mode a request with a raising rule
among healthy ones succeeds, with the raising rule contributing `[]` under its
name — but for the default HYBRID mode every request fails: the claim's
"for every detection request" is broken by `_get_rules_for_mode` evaluating
the nonexistent `DetectionMode.SEMANTIC` (an `AttributeError` the outer
handler converts to `DetectionError`), before any rule runs. -/
theorem rule_failure_isolated_but_hybrid_mode_errors :
    detect 10000 three_rules default_config request_hybrid
        = .error .detectionError ∧
    execute_multi_rule_detection three_rules request_rule_mode
        = .ok [("A".data, [item_a]), ("B".data, []), ("C".data, [])] ∧
    detect 10000 three_rules default_config request_rule_mode
        = .ok { is_sensitive := true, risk_level := .critical, overall_score := 1,
                detection_mode_used := .rule,
                results := [{ matched_word := "bad".data, category := "c".data,
                              match_type := .exact, confidence := 1,
                              positions := [{ start := 11, «end» := 14 }],
                              detection_method := .rule, suggestion := none }],
                summary := { total_matches := 1, categories_found := ["c".data],
                             highest_risk_category := some ("c".data) } } := by
  refine ⟨rfl, rfl, ?_⟩
  simp +decide [detect, execute_multi_rule_detection, get_rules_for_mode, three_rules,
    rule_healthy_hit, rule_raising, rule_healthy_empty, request_rule_mode, arbitrate,
    convert_to_hits, merge_hits_greedy, merge_scan, List.insertionSort,
    List.orderedInsert, hitKeyLe, enhance_multi_engine_matches, enhance_hit,
    match_count, rule_match_contribution, List.find?, filter_by_confidence,
    apply_category_weights, convert_to_detection_results, sort_results, resultKeyLe,
    generate_summary, calculate_overall_risk_level, max_confidence, default_config,
    default_engine_weights, item_a, min_def, List.dedup_cons_of_not_mem]
  norm_num

end VeriText
